import Mathlib

/-!
Verification development for the zap encoding subsystem.

Buffers and Go strings are modelled as `List UInt8` (Go strings are byte
sequences).  Machine integers are modelled as `Int`/`Nat` with explicit
truncation where the code converts between widths.  External user callbacks
(array/object marshalers, pluggable level/time/name/caller/duration
formatters) are modelled as traces of the encoder-interface operations they
may perform.  A Go panic is modelled by returning `none`.
-/

namespace Zap

/-- Bytes of an ASCII Lean string literal (used only for ASCII data). -/
def byteStr (s : String) : List UInt8 := s.data.map (fun c => UInt8.ofNat c.toNat)

/-- The table `_hex = "0123456789abcdef"` indexed at `n`. -/
def hexDigit (n : Nat) : UInt8 := if n < 10 then UInt8.ofNat (48 + n) else UInt8.ofNat (97 + (n - 10))

/-- The six bytes of the literal escape for the replacement character. -/
def ufffdBytes : List UInt8 := [92, 117, 102, 102, 102, 100]

/-- Decimal digits of a natural number, most significant first (fuel-driven,
mirrors strconv.AppendUint). -/
def natDecGo (fuel : Nat) (n : Nat) (acc : List UInt8) : List UInt8 :=
  match fuel with
  | 0 => acc
  | f + 1 =>
    let d : UInt8 := UInt8.ofNat (48 + n % 10)
    let n2 := n / 10
    if n2 = 0 then d :: acc else natDecGo f n2 (d :: acc)

def natDec (n : Nat) : List UInt8 := natDecGo (n + 1) n []

/-- Decimal text of an integer (mirrors strconv.AppendInt). -/
def intDec (i : Int) : List UInt8 :=
  match i with
  | Int.ofNat n => natDec n
  | Int.negSucc n => 45 :: natDec (n + 1)

/-- Two's-complement truncation of an integer to `w` bits, as Go's
narrowing conversions int8/int16/int32 perform. -/
def truncInt (w : Nat) (i : Int) : Int :=
  let m := i % ((2 : Int) ^ w)
  if m < (2 : Int) ^ (w - 1) then m else m - (2 : Int) ^ w

/-- Reinterpretation of an integer as an unsigned `w`-bit value, as Go's
uint8/uint16/uint32/uint64/uintptr conversions perform. -/
def toUBits (w : Nat) (i : Int) : Nat := (i % ((2 : Int) ^ w)).toNat

/-- Character `n` (with `n < 64`) of the standard base64 alphabet. -/
def b64Char (n : Nat) : UInt8 :=
  if n < 26 then UInt8.ofNat (65 + n)
  else if n < 52 then UInt8.ofNat (97 + (n - 26))
  else if n < 62 then UInt8.ofNat (48 + (n - 52))
  else if n = 62 then 43 else 47

/-- base64.StdEncoding.EncodeToString on raw bytes (standard alphabet,
padding with `=`, byte 61). -/
def base64Encode : List UInt8 → List UInt8
  | [] => []
  | [a] =>
    let x := a.toNat
    [b64Char (x / 4), b64Char ((x % 4) * 16), 61, 61]
  | [a, b] =>
    let x := a.toNat * 256 + b.toNat
    [b64Char (x / 1024), b64Char ((x / 16) % 64), b64Char ((x % 16) * 4), 61]
  | a :: b :: c :: rest =>
    let x := a.toNat * 65536 + b.toNat * 256 + c.toNat
    b64Char (x / 262144) :: b64Char ((x / 4096) % 64) :: b64Char ((x / 64) % 64) ::
      b64Char (x % 64) :: base64Encode rest

/-- Model of unicode/utf8.DecodeRune: decodes the first rune of a byte
sequence, returning the code point and the number of bytes consumed; an
invalid or truncated encoding yields the replacement rune 0xFFFD with
size 1 (size 0 on empty input). -/
def decodeRune (p : List UInt8) : Nat × Nat :=
  match p with
  | [] => (0xFFFD, 0)
  | p0 :: rest =>
    let b0 := p0.toNat
    if b0 < 0x80 then (b0, 1)
    else if b0 < 0xC2 ∨ 0xF4 < b0 then (0xFFFD, 1)
    else
      let sz := if b0 < 0xE0 then 2 else if b0 < 0xF0 then 3 else 4
      let lo := if b0 = 0xE0 then 0xA0 else if b0 = 0xF0 then 0x90 else 0x80
      let hi := if b0 = 0xED then 0x9F else if b0 = 0xF4 then 0x8F else 0xBF
      match rest with
      | [] => (0xFFFD, 1)
      | p1 :: rest1 =>
        let b1 := p1.toNat
        if b1 < lo ∨ hi < b1 then (0xFFFD, 1)
        else if sz = 2 then ((b0 - 0xC0) * 64 + (b1 - 0x80), 2)
        else
          match rest1 with
          | [] => (0xFFFD, 1)
          | p2 :: rest2 =>
            let b2 := p2.toNat
            if b2 < 0x80 ∨ 0xBF < b2 then (0xFFFD, 1)
            else if sz = 3 then ((b0 - 0xE0) * 4096 + (b1 - 0x80) * 64 + (b2 - 0x80), 3)
            else
              match rest2 with
              | [] => (0xFFFD, 1)
              | p3 :: _ =>
                let b3 := p3.toNat
                if b3 < 0x80 ∨ 0xBF < b3 then (0xFFFD, 1)
                else ((b0 - 0xF0) * 262144 + (b1 - 0x80) * 4096 + (b2 - 0x80) * 64 + (b3 - 0x80), 4)

/-- Model of unicode/utf8.DecodeRuneInString; Go's string variant performs
the identical algorithm on the string's bytes. -/
def decodeRuneInString (p : List UInt8) : Nat × Nat := decodeRune p

/-- An operation a pluggable config formatter (LevelEncoder, TimeEncoder,
NameEncoder, CallerEncoder, DurationEncoder) may perform on the
PrimitiveArrayEncoder it receives. -/
inductive POp where
  | pString (s : List UInt8)
  | pInt64 (n : Int)
  | pUint64 (n : Nat)
  | pBool (b : Bool)

/-- An operation a user-supplied Array/ObjectMarshaler callback may perform
on the encoder it receives. -/
inductive MOp where
  | mAddString (k v : List UInt8)
  | mAddInt64 (k : List UInt8) (n : Int)
  | mAddBool (k : List UInt8) (b : Bool)
  | mOpenNamespace (k : List UInt8)
  | mAppendString (s : List UInt8)
  | mAppendInt64 (n : Int)
  | mAppendBool (b : Bool)

/-- A user marshaler, modelled as the trace of encoder operations its
MarshalLogArray/MarshalLogObject callback performs followed by the error it
returns. -/
structure MarshalerM where
  ops : List MOp
  err : Option (List UInt8)

/-- zapcore.EncoderConfig: the key names consumed by the encoders plus the
pluggable formatter callbacks (each modelled as the operation trace it
performs, `none` for a nil function). -/
structure EncoderConfig where
  levelKey : List UInt8
  timeKey : List UInt8
  nameKey : List UInt8
  callerKey : List UInt8
  messageKey : List UInt8
  stacktraceKey : List UInt8
  lineEnding : List UInt8
  encodeLevel : Option (Int → List POp)
  encodeTime : Option (Int → List POp)
  encodeDuration : Option (Int → List POp)
  encodeCaller : Option (List UInt8 → List POp)
  encodeName : Option (List UInt8 → List POp)

/-- Modelled from the spec: zapcore.DefaultLineEnding, the default line
terminator, a single newline (its defining file is not under src). -/
def DefaultLineEnding : List UInt8 := [10]

/-- The jsonEncoder state: embedded config pointer, output buffer, spacing
flag and open-namespace depth counter.  The pooled reflection scratch
buffer is not part of the state: the reflection sub-encoder's outcome is
modelled directly in the reflected field payload. -/
structure jsonEncoder where
  cfg : EncoderConfig
  buf : List UInt8
  spaced : Bool
  openNamespaces : Nat

/-- buffer.Buffer.AppendByte. -/
def appendByteJ (st : jsonEncoder) (b : UInt8) : jsonEncoder :=
  ⟨st.cfg, st.buf ++ [b], st.spaced, st.openNamespaces⟩

/-- buffer.Buffer.Write / AppendString of raw bytes. -/
def bufWriteJ (st : jsonEncoder) (bs : List UInt8) : jsonEncoder :=
  ⟨st.cfg, st.buf ++ bs, st.spaced, st.openNamespaces⟩

/-- jsonEncoder.addElementSeparator: inspect the last byte of the buffer;
if the buffer is empty or the byte is a left brace, left bracket, colon,
comma or space, write nothing; otherwise write a comma and, when spacing is
enabled, a space. -/
def addElementSeparator (st : jsonEncoder) : jsonEncoder :=
  match st.buf.getLast? with
  | none => st
  | some b =>
    if b.toNat = 123 ∨ b.toNat = 91 ∨ b.toNat = 58 ∨ b.toNat = 44 ∨ b.toNat = 32 then st
    else
      let st1 := appendByteJ st 44
      if st.spaced then appendByteJ st1 32 else st1

/-- jsonEncoder.tryAddRuneSelf on the raw buffer: handles a single-byte
(ASCII) character, returning `none` for bytes that are part of a
multi-byte rune (byte at least 0x80). -/
def tryAddRuneSelfB (buf : List UInt8) (b : UInt8) : Option (List UInt8) :=
  if 0x80 ≤ b.toNat then none
  else some (
    if 0x20 ≤ b.toNat ∧ b.toNat ≠ 92 ∧ b.toNat ≠ 34 then buf ++ [b]
    else if b.toNat = 92 ∨ b.toNat = 34 then buf ++ [92, b]
    else if b.toNat = 10 then buf ++ [92, 110]
    else if b.toNat = 13 then buf ++ [92, 114]
    else if b.toNat = 9 then buf ++ [92, 116]
    else buf ++ [92, 117, 48, 48, hexDigit (b.toNat / 16), hexDigit (b.toNat % 16)])

/-- jsonEncoder.tryAddRuneError on the raw buffer: emits the literal
replacement-character escape when the decode produced the replacement rune
with size one. -/
def tryAddRuneErrorB (buf : List UInt8) (r : Nat) (size : Nat) : Option (List UInt8) :=
  if r = 0xFFFD ∧ size = 1 then some (buf ++ ufffdBytes) else none

/-- Loop body of jsonEncoder.safeAddString (fuel-driven; the fuel is the
remaining input length, each step consumes at least one byte). -/
def safeGoString : Nat → List UInt8 → List UInt8 → List UInt8
  | 0, buf, _ => buf
  | _ + 1, buf, [] => buf
  | fuel + 1, buf, b :: rest =>
    match tryAddRuneSelfB buf b with
    | some buf1 => safeGoString fuel buf1 rest
    | none =>
      let rs := decodeRuneInString (b :: rest)
      match tryAddRuneErrorB buf rs.1 rs.2 with
      | some buf1 => safeGoString fuel buf1 rest
      | none => safeGoString fuel (buf ++ (b :: rest).take rs.2) ((b :: rest).drop rs.2)

/-- Loop body of jsonEncoder.safeAddByteString: the identical algorithm,
using utf8.DecodeRune instead of utf8.DecodeRuneInString and Buffer.Write
instead of Buffer.AppendString. -/
def safeGoBytes : Nat → List UInt8 → List UInt8 → List UInt8
  | 0, buf, _ => buf
  | _ + 1, buf, [] => buf
  | fuel + 1, buf, b :: rest =>
    match tryAddRuneSelfB buf b with
    | some buf1 => safeGoBytes fuel buf1 rest
    | none =>
      let rs := decodeRune (b :: rest)
      match tryAddRuneErrorB buf rs.1 rs.2 with
      | some buf1 => safeGoBytes fuel buf1 rest
      | none => safeGoBytes fuel (buf ++ (b :: rest).take rs.2) ((b :: rest).drop rs.2)

/-- jsonEncoder.safeAddString on the raw buffer. -/
def safeAddStringB (buf s : List UInt8) : List UInt8 := safeGoString s.length buf s

/-- jsonEncoder.safeAddByteString on the raw buffer. -/
def safeAddByteStringB (buf s : List UInt8) : List UInt8 := safeGoBytes s.length buf s

/-- jsonEncoder.safeAddString as a state transformer. -/
def safeAddString (st : jsonEncoder) (s : List UInt8) : jsonEncoder :=
  ⟨st.cfg, safeAddStringB st.buf s, st.spaced, st.openNamespaces⟩

/-- jsonEncoder.safeAddByteString as a state transformer. -/
def safeAddByteString (st : jsonEncoder) (s : List UInt8) : jsonEncoder :=
  ⟨st.cfg, safeAddByteStringB st.buf s, st.spaced, st.openNamespaces⟩

/-- jsonEncoder.addKey: separator, quoted escaped key, colon, and an
optional space when spacing is enabled. -/
def addKey (st : jsonEncoder) (key : List UInt8) : jsonEncoder :=
  let st5 := appendByteJ (appendByteJ (safeAddString (appendByteJ (addElementSeparator st) 34) key) 34) 58
  if st.spaced then appendByteJ st5 32 else st5

/-- jsonEncoder.AppendString: separator, then the escaped value between
double quotes. -/
def AppendString (st : jsonEncoder) (val : List UInt8) : jsonEncoder :=
  let st1 := addElementSeparator st
  let st2 := appendByteJ st1 34
  let st3 := safeAddString st2 val
  appendByteJ st3 34

/-- jsonEncoder.AppendByteString: separator, then the escaped bytes between
double quotes. -/
def AppendByteString (st : jsonEncoder) (val : List UInt8) : jsonEncoder :=
  let st1 := addElementSeparator st
  let st2 := appendByteJ st1 34
  let st3 := safeAddByteString st2 val
  appendByteJ st3 34

/-- jsonEncoder.AppendBool (buffer.AppendBool writes the strconv literal). -/
def AppendBool (st : jsonEncoder) (val : Bool) : jsonEncoder :=
  let st1 := addElementSeparator st
  bufWriteJ st1 (if val then byteStr "true" else byteStr "false")

/-- jsonEncoder.AppendInt64. -/
def AppendInt64 (st : jsonEncoder) (val : Int) : jsonEncoder :=
  let st1 := addElementSeparator st
  bufWriteJ st1 (intDec val)

/-- jsonEncoder.AppendUint64. -/
def AppendUint64 (st : jsonEncoder) (val : Nat) : jsonEncoder :=
  let st1 := addElementSeparator st
  bufWriteJ st1 (natDec val)

/-- IEEE-754 float64 NaN test on the bit pattern. -/
def isNaN64 (bits : Nat) : Bool := (bits / 2 ^ 52) % 2 ^ 11 = 2047 ∧ bits % 2 ^ 52 ≠ 0

/-- IEEE-754 float32 NaN test on the bit pattern. -/
def isNaN32 (bits : Nat) : Bool := (bits / 2 ^ 23) % 2 ^ 8 = 255 ∧ bits % 2 ^ 23 ≠ 0

/-- Stand-in for strconv.AppendFloat on a float64 bit pattern (the strconv
library is external to the repository; no theorem in this file depends on
the digits it produces). -/
def strconvFloat64 (bits : Nat) : List UInt8 := natDec bits

/-- Stand-in for strconv.AppendFloat on a float32 bit pattern. -/
def strconvFloat32 (bits : Nat) : List UInt8 := natDec bits

/-- jsonEncoder.appendFloat for a 64-bit value: NaN and the infinities are
emitted as quoted literals, everything else through strconv. -/
def appendFloat64 (st : jsonEncoder) (bits : Nat) : jsonEncoder :=
  let st1 := addElementSeparator st
  if isNaN64 bits then bufWriteJ st1 (byteStr "\"NaN\"")
  else if bits = 0x7FF0000000000000 then bufWriteJ st1 (byteStr "\"+Inf\"")
  else if bits = 0xFFF0000000000000 then bufWriteJ st1 (byteStr "\"-Inf\"")
  else bufWriteJ st1 (strconvFloat64 bits)

/-- jsonEncoder.appendFloat for a 32-bit value (Go first widens the value
to float64; NaN and infinity classification is preserved by the widening,
so it is performed here on the 32-bit pattern). -/
def appendFloat32 (st : jsonEncoder) (bits : Nat) : jsonEncoder :=
  let st1 := addElementSeparator st
  if isNaN32 bits then bufWriteJ st1 (byteStr "\"NaN\"")
  else if bits = 0x7F800000 then bufWriteJ st1 (byteStr "\"+Inf\"")
  else if bits = 0xFF800000 then bufWriteJ st1 (byteStr "\"-Inf\"")
  else bufWriteJ st1 (strconvFloat32 bits)

/-- jsonEncoder.AppendComplex128: a quoted string holding real part, plus
sign byte, imaginary part and the trailing letter i, both parts formatted
by strconv at 64-bit precision (payload carried as float64 bit patterns). -/
def AppendComplex128 (st : jsonEncoder) (rbits ibits : Nat) : jsonEncoder :=
  let st1 := addElementSeparator st
  let st2 := appendByteJ st1 34
  let st3 := bufWriteJ st2 (strconvFloat64 rbits)
  let st4 := appendByteJ st3 43
  let st5 := bufWriteJ st4 (strconvFloat64 ibits)
  let st6 := appendByteJ st5 105
  appendByteJ st6 34

/-- jsonEncoder.OpenNamespace: key, a bare left brace, and the depth
counter incremented. -/
def OpenNamespace (st : jsonEncoder) (key : List UInt8) : jsonEncoder :=
  let st1 := addKey st key
  let st2 := appendByteJ st1 123
  ⟨st2.cfg, st2.buf, st2.spaced, st2.openNamespaces + 1⟩

/-- The loop of jsonEncoder.closeOpenNamespaces: append a right brace `n`
times. -/
def closeLoop : jsonEncoder → Nat → jsonEncoder
  | st, 0 => st
  | st, n + 1 => closeLoop (appendByteJ st 125) n

/-- jsonEncoder.closeOpenNamespaces: appends one right brace per open
namespace. -/
def closeOpenNamespaces (st : jsonEncoder) : jsonEncoder :=
  closeLoop st st.openNamespaces

/-- Run the operation trace of a pluggable formatter against the
jsonEncoder (the formatter receives the encoder as a
PrimitiveArrayEncoder). -/
def runPOp (st : jsonEncoder) (op : POp) : jsonEncoder :=
  match op with
  | POp.pString s => AppendString st s
  | POp.pInt64 n => AppendInt64 st n
  | POp.pUint64 n => AppendUint64 st n
  | POp.pBool b => AppendBool st b

def runPOps : jsonEncoder → List POp → jsonEncoder
  | st, [] => st
  | st, op :: rest => runPOps (runPOp st op) rest

/-- jsonEncoder.AppendTime: run the configured time formatter and, when it
wrote nothing, fall back to nanoseconds since epoch.  Calling a nil
formatter is a Go panic, modelled as `none`. -/
def AppendTime (st : jsonEncoder) (t : Int) : Option jsonEncoder :=
  match st.cfg.encodeTime with
  | none => none
  | some g =>
    let cur := st.buf.length
    let st1 := runPOps st (g t)
    some (if st1.buf.length = cur then AppendInt64 st1 t else st1)

/-- jsonEncoder.AppendDuration: run the configured duration formatter and,
when it wrote nothing, fall back to the nanosecond count. -/
def AppendDuration (st : jsonEncoder) (d : Int) : Option jsonEncoder :=
  match st.cfg.encodeDuration with
  | none => none
  | some g =>
    let cur := st.buf.length
    let st1 := runPOps st (g d)
    some (if st1.buf.length = cur then AppendInt64 st1 d else st1)

/-- jsonEncoder.AddString. -/
def AddString (st : jsonEncoder) (key val : List UInt8) : jsonEncoder :=
  AppendString (addKey st key) val

/-- jsonEncoder.AddByteString. -/
def AddByteString (st : jsonEncoder) (key val : List UInt8) : jsonEncoder :=
  AppendByteString (addKey st key) val

/-- jsonEncoder.AddBool. -/
def AddBool (st : jsonEncoder) (key : List UInt8) (val : Bool) : jsonEncoder :=
  AppendBool (addKey st key) val

/-- jsonEncoder.AddInt64. -/
def AddInt64 (st : jsonEncoder) (key : List UInt8) (val : Int) : jsonEncoder :=
  AppendInt64 (addKey st key) val

/-- jsonEncoder.AddUint64. -/
def AddUint64 (st : jsonEncoder) (key : List UInt8) (val : Nat) : jsonEncoder :=
  AppendUint64 (addKey st key) val

/-- jsonEncoder.AddBinary: the bytes are base64-encoded into a string and
added with AddString. -/
def AddBinary (st : jsonEncoder) (key val : List UInt8) : jsonEncoder :=
  AddString st key (base64Encode val)

/-- jsonEncoder.AddComplex128. -/
def AddComplex128 (st : jsonEncoder) (key : List UInt8) (rbits ibits : Nat) : jsonEncoder :=
  AppendComplex128 (addKey st key) rbits ibits

/-- jsonEncoder.AddFloat64. -/
def AddFloat64 (st : jsonEncoder) (key : List UInt8) (bits : Nat) : jsonEncoder :=
  appendFloat64 (addKey st key) bits

/-- jsonEncoder.AddFloat32. -/
def AddFloat32 (st : jsonEncoder) (key : List UInt8) (bits : Nat) : jsonEncoder :=
  appendFloat32 (addKey st key) bits

/-- jsonEncoder.AddTime. -/
def AddTime (st : jsonEncoder) (key : List UInt8) (t : Int) : Option jsonEncoder :=
  AppendTime (addKey st key) t

/-- jsonEncoder.AddDuration. -/
def AddDuration (st : jsonEncoder) (key : List UInt8) (d : Int) : Option jsonEncoder :=
  AppendDuration (addKey st key) d

/-- Run the operation trace of a user marshaler callback against the
encoder it received. -/
def runMOp (st : jsonEncoder) (op : MOp) : jsonEncoder :=
  match op with
  | MOp.mAddString k v => AddString st k v
  | MOp.mAddInt64 k n => AddInt64 st k n
  | MOp.mAddBool k b => AddBool st k b
  | MOp.mOpenNamespace k => OpenNamespace st k
  | MOp.mAppendString s => AppendString st s
  | MOp.mAppendInt64 n => AppendInt64 st n
  | MOp.mAppendBool b => AppendBool st b

def runMOps : jsonEncoder → List MOp → jsonEncoder
  | st, [] => st
  | st, op :: rest => runMOps (runMOp st op) rest

/-- jsonEncoder.AppendArray: left bracket, delegate to the marshaler
callback, right bracket; the callback's error is returned but both
brackets are written unconditionally. -/
def AppendArray (st : jsonEncoder) (m : MarshalerM) : jsonEncoder × Option (List UInt8) :=
  let st1 := addElementSeparator st
  let st2 := appendByteJ st1 91
  let st3 := runMOps st2 m.ops
  (appendByteJ st3 93, m.err)

/-- jsonEncoder.AppendObject: same shape with braces. -/
def AppendObject (st : jsonEncoder) (m : MarshalerM) : jsonEncoder × Option (List UInt8) :=
  let st1 := addElementSeparator st
  let st2 := appendByteJ st1 123
  let st3 := runMOps st2 m.ops
  (appendByteJ st3 125, m.err)

/-- jsonEncoder.AddArray. -/
def AddArray (st : jsonEncoder) (key : List UInt8) (m : MarshalerM) :
    jsonEncoder × Option (List UInt8) :=
  AppendArray (addKey st key) m

/-- jsonEncoder.AddObject. -/
def AddObject (st : jsonEncoder) (key : List UInt8) (m : MarshalerM) :
    jsonEncoder × Option (List UInt8) :=
  AppendObject (addKey st key) m

/-- buffer.Buffer.TrimNewline: drop one trailing newline byte. -/
def trimNewline (bs : List UInt8) : List UInt8 :=
  match bs.getLast? with
  | some b => if b.toNat = 10 then bs.dropLast else bs
  | none => bs

/-- jsonEncoder.AddReflected: the reflection sub-encoder runs first (its
outcome is the payload); on error nothing is written and the error is
returned; on success the trailing newline is trimmed, then key and encoded
bytes are written. -/
def AddReflected (st : jsonEncoder) (key : List UInt8)
    (r : Except (List UInt8) (List UInt8)) : jsonEncoder × Option (List UInt8) :=
  match r with
  | Except.error e => (st, some e)
  | Except.ok bs => (bufWriteJ (addKey st key) (trimNewline bs), none)

/-- zapcore.FieldType: the closed enumeration of field kinds. -/
inductive FieldType where
  | UnknownType
  | ArrayMarshalerType
  | ObjectMarshalerType
  | BinaryType
  | BoolType
  | ByteStringType
  | Complex128Type
  | Complex64Type
  | DurationType
  | Float64Type
  | Float32Type
  | Int64Type
  | Int32Type
  | Int16Type
  | Int8Type
  | StringType
  | TimeType
  | Uint64Type
  | Uint32Type
  | Uint16Type
  | Uint8Type
  | UintptrType
  | ReflectType
  | NamespaceType
  | StringerType
  | ErrorType
  | SkipType
deriving DecidableEq

/-- The payload carried in a Field's opaque Interface member.  Marshalers
are operation traces, a stringer is the text its String method returns, an
error is its message, a reflected value is the outcome of the json package
encoding it (complex values carry the float64 bit patterns of their real
and imaginary parts; a time's optional location only affects external
formatting and is not carried). -/
inductive FieldValue where
  | vNone
  | vArr (m : MarshalerM)
  | vObj (m : MarshalerM)
  | vBytes (bs : List UInt8)
  | vCpx (rbits ibits : Nat)
  | vStringer (s : List UInt8)
  | vErr (msg : List UInt8)
  | vReflect (r : Except (List UInt8) (List UInt8))

/-- zapcore.Field: Key, Type, and the Integer/String/Interface scratch
members. -/
structure Field where
  key : List UInt8
  ty : FieldType
  integer : Int
  str : List UInt8
  value : FieldValue

/-- Modelled from the spec: zapcore.encodeError (its defining file is not
under src).  An error-typed field records the error's message as a string
field under the key. -/
def encodeError (key msg : List UInt8) (st : jsonEncoder) : jsonEncoder :=
  AddString st key msg

/-- Field.AddTo: dispatch on the field type into the encoder; a marshaling
or reflection error err is recovered by adding the string field
key ++ "Error" holding the message; the unknown sentinel type (and a
payload that fails the Go type assertion of its case) panics, modelled as
`none`. -/
def AddTo (f : Field) (st : jsonEncoder) : Option jsonEncoder :=
  match f.ty, f.value with
  | FieldType.ArrayMarshalerType, FieldValue.vArr m =>
    let r := AddArray st f.key m
    some (match r.2 with
      | some msg => AddString r.1 (f.key ++ byteStr "Error") msg
      | none => r.1)
  | FieldType.ObjectMarshalerType, FieldValue.vObj m =>
    let r := AddObject st f.key m
    some (match r.2 with
      | some msg => AddString r.1 (f.key ++ byteStr "Error") msg
      | none => r.1)
  | FieldType.BinaryType, FieldValue.vBytes bs => some (AddBinary st f.key bs)
  | FieldType.BoolType, FieldValue.vNone => some (AddBool st f.key (f.integer == 1))
  | FieldType.ByteStringType, FieldValue.vBytes bs => some (AddByteString st f.key bs)
  | FieldType.Complex128Type, FieldValue.vCpx r i => some (AddComplex128 st f.key r i)
  | FieldType.Complex64Type, FieldValue.vCpx r i => some (AddComplex128 st f.key r i)
  | FieldType.DurationType, FieldValue.vNone => AddDuration st f.key f.integer
  | FieldType.Float64Type, FieldValue.vNone => some (AddFloat64 st f.key (toUBits 64 f.integer))
  | FieldType.Float32Type, FieldValue.vNone => some (AddFloat32 st f.key (toUBits 32 f.integer))
  | FieldType.Int64Type, FieldValue.vNone => some (AddInt64 st f.key f.integer)
  | FieldType.Int32Type, FieldValue.vNone => some (AddInt64 st f.key (truncInt 32 f.integer))
  | FieldType.Int16Type, FieldValue.vNone => some (AddInt64 st f.key (truncInt 16 f.integer))
  | FieldType.Int8Type, FieldValue.vNone => some (AddInt64 st f.key (truncInt 8 f.integer))
  | FieldType.StringType, FieldValue.vNone => some (AddString st f.key f.str)
  | FieldType.TimeType, FieldValue.vNone => AddTime st f.key f.integer
  | FieldType.Uint64Type, FieldValue.vNone => some (AddUint64 st f.key (toUBits 64 f.integer))
  | FieldType.Uint32Type, FieldValue.vNone => some (AddUint64 st f.key (toUBits 32 f.integer))
  | FieldType.Uint16Type, FieldValue.vNone => some (AddUint64 st f.key (toUBits 16 f.integer))
  | FieldType.Uint8Type, FieldValue.vNone => some (AddUint64 st f.key (toUBits 8 f.integer))
  | FieldType.UintptrType, FieldValue.vNone => some (AddUint64 st f.key (toUBits 64 f.integer))
  | FieldType.ReflectType, FieldValue.vReflect r =>
    let r1 := AddReflected st f.key r
    some (match r1.2 with
      | some msg => AddString r1.1 (f.key ++ byteStr "Error") msg
      | none => r1.1)
  | FieldType.NamespaceType, FieldValue.vNone => some (OpenNamespace st f.key)
  | FieldType.StringerType, FieldValue.vStringer s => some (AddString st f.key s)
  | FieldType.ErrorType, FieldValue.vErr msg => some (encodeError f.key msg st)
  | FieldType.SkipType, FieldValue.vNone => some st
  | _, _ => none

/-- The payload shape prescribed for each field type by the data-model
invariant (which of Integer/String/Interface is meaningful is determined
solely by Type). -/
def wellFormed (f : Field) : Bool :=
  match f.ty, f.value with
  | FieldType.ArrayMarshalerType, FieldValue.vArr _ => true
  | FieldType.ObjectMarshalerType, FieldValue.vObj _ => true
  | FieldType.BinaryType, FieldValue.vBytes _ => true
  | FieldType.ByteStringType, FieldValue.vBytes _ => true
  | FieldType.Complex128Type, FieldValue.vCpx _ _ => true
  | FieldType.Complex64Type, FieldValue.vCpx _ _ => true
  | FieldType.StringerType, FieldValue.vStringer _ => true
  | FieldType.ErrorType, FieldValue.vErr _ => true
  | FieldType.ReflectType, FieldValue.vReflect _ => true
  | FieldType.UnknownType, _ => true
  | FieldType.BoolType, FieldValue.vNone => true
  | FieldType.DurationType, FieldValue.vNone => true
  | FieldType.Float64Type, FieldValue.vNone => true
  | FieldType.Float32Type, FieldValue.vNone => true
  | FieldType.Int64Type, FieldValue.vNone => true
  | FieldType.Int32Type, FieldValue.vNone => true
  | FieldType.Int16Type, FieldValue.vNone => true
  | FieldType.Int8Type, FieldValue.vNone => true
  | FieldType.StringType, FieldValue.vNone => true
  | FieldType.TimeType, FieldValue.vNone => true
  | FieldType.Uint64Type, FieldValue.vNone => true
  | FieldType.Uint32Type, FieldValue.vNone => true
  | FieldType.Uint16Type, FieldValue.vNone => true
  | FieldType.Uint8Type, FieldValue.vNone => true
  | FieldType.UintptrType, FieldValue.vNone => true
  | FieldType.NamespaceType, FieldValue.vNone => true
  | FieldType.SkipType, FieldValue.vNone => true
  | _, _ => false

/-- A configuration whose duration and time formatters are installed (the
json encoder calls each without a nil check, so a nil one is a separate,
configuration-level panic). -/
def wellConfigured (cfg : EncoderConfig) : Bool :=
  cfg.encodeDuration.isSome && cfg.encodeTime.isSome

/-- zapcore.addFields: replay each field into the encoder in order. -/
def addFields : jsonEncoder → List Field → Option jsonEncoder
  | st, [] => some st
  | st, f :: rest =>
    match AddTo f st with
    | none => none
    | some st1 => addFields st1 rest

/-- zapcore.Entry: the per-call metadata.  levelText and callerText model
the String forms of the level and caller (their types are external to
src); time is nanoseconds since epoch. -/
structure Entry where
  level : Int
  levelText : List UInt8
  time : Int
  loggerName : List UInt8
  callerDefined : Bool
  callerText : List UInt8
  message : List UInt8
  stack : List UInt8

/-- jsonEncoder.clone: same configuration, spacing flag and namespace
depth, fresh empty buffer (pool acquisition is operational only). -/
def cloneJ (enc : jsonEncoder) : jsonEncoder :=
  ⟨enc.cfg, [], enc.spaced, enc.openNamespaces⟩

/-- jsonEncoder.Clone: clone plus a copy of the accumulated bytes. -/
def cloneFull (enc : jsonEncoder) : jsonEncoder :=
  let c := cloneJ enc
  bufWriteJ c enc.buf

/-- Modelled from the spec: zapcore.FullNameEncoder (its defining file is
not under src), the backwards-compatible fallback that appends the logger
name as a string. -/
def FullNameEncoder (name : List UInt8) : List POp := [POp.pString name]

/-- jsonEncoder.EncodeEntry producing the returned buffer: clone, open
brace, conditional level/time/name/caller/message metadata (each
user-pluggable formatter falling back to a guaranteed-valid default when
it wrote nothing), separator-aware splice of pre-accumulated context
bytes, the supplied fields, namespace closing, conditional stacktrace,
closing brace and line terminator. -/
def jsonEncodeEntryCore (enc : jsonEncoder) (ent : Entry) (fields : List Field) :
    Option (List UInt8) := do
  let f0 := appendByteJ (cloneJ enc) 123
  let f1 ←
    if enc.cfg.levelKey ≠ [] then
      let s := addKey f0 enc.cfg.levelKey
      let cur := s.buf.length
      match enc.cfg.encodeLevel with
      | none => none
      | some g =>
        let s2 := runPOps s (g ent.level)
        some (if s2.buf.length = cur then AppendString s2 ent.levelText else s2)
    else pure f0
  let f2 ← if enc.cfg.timeKey ≠ [] then AddTime f1 enc.cfg.timeKey ent.time else pure f1
  let f3 ←
    if ent.loggerName ≠ [] ∧ enc.cfg.nameKey ≠ [] then
      let s := addKey f2 enc.cfg.nameKey
      let cur := s.buf.length
      let nameEncoder := match enc.cfg.encodeName with
        | some g => g
        | none => FullNameEncoder
      let s2 := runPOps s (nameEncoder ent.loggerName)
      pure (if s2.buf.length = cur then AppendString s2 ent.loggerName else s2)
    else pure f2
  let f4 ←
    if ent.callerDefined ∧ enc.cfg.callerKey ≠ [] then
      let s := addKey f3 enc.cfg.callerKey
      let cur := s.buf.length
      match enc.cfg.encodeCaller with
      | none => none
      | some g =>
        let s2 := runPOps s (g ent.callerText)
        some (if s2.buf.length = cur then AppendString s2 ent.callerText else s2)
    else pure f3
  let f5 :=
    if enc.cfg.messageKey ≠ [] then AppendString (addKey f4 enc.cfg.messageKey) ent.message
    else f4
  let f6 :=
    if enc.buf ≠ [] then bufWriteJ (addElementSeparator f5) enc.buf
    else f5
  let f7 ← addFields f6 fields
  let f8 := closeOpenNamespaces f7
  let f9 :=
    if ent.stack ≠ [] ∧ enc.cfg.stacktraceKey ≠ [] then AddString f8 enc.cfg.stacktraceKey ent.stack
    else f8
  let f10 := appendByteJ f9 125
  pure (f10.buf ++ (if enc.cfg.lineEnding ≠ [] then enc.cfg.lineEnding else DefaultLineEnding))

/-- jsonEncoder.EncodeEntry: the buffer paired with the literal nil error
of its return statement. -/
def jsonEncodeEntry (enc : jsonEncoder) (ent : Entry) (fields : List Field) :
    Option (List UInt8 × Option (List UInt8)) :=
  (jsonEncodeEntryCore enc ent fields).map (fun b => (b, none))

/-- The text fmt.Fprint produces for the value a formatter appended to the
sliceArrayEncoder (strings verbatim, numbers in decimal, bools as their
literals). -/
def pOpText (op : POp) : List UInt8 :=
  match op with
  | POp.pString s => s
  | POp.pInt64 n => intDec n
  | POp.pUint64 n => natDec n
  | POp.pBool b => if b then byteStr "true" else byteStr "false"

/-- Run a formatter's operation trace against the sliceArrayEncoder: each
operation appends one element. -/
def runPOpsSlice (elems : List (List UInt8)) (ops : List POp) : List (List UInt8) :=
  elems ++ ops.map pOpText

/-- The tab-separated join of the metadata cells. -/
def joinTabs : List (List UInt8) → List UInt8
  | [] => []
  | e :: rest => rest.foldl (fun acc x => acc ++ 9 :: x) e

/-- consoleEncoder.addTabIfNecessary: a tab when the line is non-empty. -/
def addTabIfNecessary (line : List UInt8) : List UInt8 :=
  if line ≠ [] then line ++ [9] else line

/-- consoleEncoder.EncodeEntry producing the returned buffer: metadata
cells joined by tabs, the message, the structured context replayed through
a full clone of the json encoder and wrapped in braces when non-empty,
conditional stack, line terminator. -/
def consoleEncodeEntryCore (c : jsonEncoder) (ent : Entry) (fields : List Field) :
    Option (List UInt8) := do
  let elems0 : List (List UInt8) := []
  let elems1 :=
    match c.cfg.encodeTime with
    | some g => if c.cfg.timeKey ≠ [] then runPOpsSlice elems0 (g ent.time) else elems0
    | none => elems0
  let elems2 :=
    match c.cfg.encodeLevel with
    | some g => if c.cfg.levelKey ≠ [] then runPOpsSlice elems1 (g ent.level) else elems1
    | none => elems1
  let elems3 :=
    if ent.loggerName ≠ [] ∧ c.cfg.nameKey ≠ [] then
      let nameEncoder := match c.cfg.encodeName with
        | some g => g
        | none => FullNameEncoder
      runPOpsSlice elems2 (nameEncoder ent.loggerName)
    else elems2
  let elems4 :=
    match c.cfg.encodeCaller with
    | some g =>
      if ent.callerDefined ∧ c.cfg.callerKey ≠ [] then runPOpsSlice elems3 (g ent.callerText)
      else elems3
    | none => elems3
  let line0 := joinTabs elems4
  let line1 :=
    if c.cfg.messageKey ≠ [] then addTabIfNecessary line0 ++ ent.message
    else line0
  -- writeContext
  let context0 := cloneFull c
  let context1 ← addFields context0 fields
  let context2 := closeOpenNamespaces context1
  let line2 :=
    if context2.buf = [] then line1
    else addTabIfNecessary line1 ++ 123 :: context2.buf ++ [125]
  let line3 :=
    if ent.stack ≠ [] ∧ c.cfg.stacktraceKey ≠ [] then line2 ++ 10 :: ent.stack
    else line2
  pure (line3 ++ (if c.cfg.lineEnding ≠ [] then c.cfg.lineEnding else DefaultLineEnding))

/-- consoleEncoder.EncodeEntry: the line paired with the literal nil error
of its return statement. -/
def consoleEncodeEntry (c : jsonEncoder) (ent : Entry) (fields : List Field) :
    Option (List UInt8 × Option (List UInt8)) :=
  (consoleEncodeEntryCore c ent fields).map (fun b => (b, none))

/-- newJSONEncoder: fresh buffer with the given spacing flag. -/
def newJSONEncoder (cfg : EncoderConfig) (spaced : Bool) : jsonEncoder :=
  ⟨cfg, [], spaced, 0⟩

/-- NewConsoleEncoder wraps a json encoder in spaced mode. -/
def newConsoleEncoder (cfg : EncoderConfig) : jsonEncoder :=
  newJSONEncoder cfg true

/-- A write sink: its Write method, taking the payload and reporting a
byte count and an optional error. -/
def WriteSyncerW : Type := List UInt8 → Nat × Option (List UInt8)

/-- One iteration of the multiWriteSyncer.Write loop: call the member with
the payload, aggregate its error (multierr aggregation modelled as the
list of non-nil errors in order) and update the running written count: a
first non-zero count sets it, any later smaller count lowers it. -/
def multiStep (p : List UInt8) (acc : Nat × List (List UInt8)) (w : WriteSyncerW) :
    Nat × List (List UInt8) :=
  let r := w p
  (if acc.1 = 0 ∧ r.1 ≠ 0 then r.1 else if r.1 < acc.1 then r.1 else acc.1,
   acc.2 ++ r.2.toList)

/-- multiWriteSyncer.Write: the loop over every member starting from a
zero count and no error. -/
def multiWriteSyncerWrite (ws : List WriteSyncerW) (p : List UInt8) :
    Nat × List (List UInt8) :=
  ws.foldl (multiStep p) (0, [])

/-- One step of the written-count rule exactly as the claim words it. -/
def claimStep (acc n : Nat) : Nat :=
  if acc = 0 ∧ n ≠ 0 then n else if n < acc then n else acc

/-- The written-count rule exactly as the claim words it (the spec-side
definition for the refinement statement): start at 0; the first member
that reports a non-zero count sets the running value; any later member
reporting fewer bytes than the running value lowers it. -/
def claimMultiWriteCount (ns : List Nat) : Nat :=
  ns.foldl claimStep 0

/-- A configuration with every key empty, every formatter nil and no line
ending override. -/
def cfgEmpty : EncoderConfig :=
  ⟨[], [], [], [], [], [], [], none, none, none, none, none⟩

/-- cfgEmpty with (no-op) time and duration formatters installed. -/
def cfgWC : EncoderConfig :=
  ⟨[], [], [], [], [], [], [], none, some (fun _ => []), some (fun _ => []), none, none⟩

/-- A fresh compact json encoder over the empty configuration. -/
def encCompact : jsonEncoder := newJSONEncoder cfgEmpty false

/-- A fresh console encoder over the empty configuration. -/
def encConsole : jsonEncoder := newConsoleEncoder cfgEmpty

/-- A minimal entry: zero level, zero time, no name, caller, message or
stack. -/
def entMin : Entry := ⟨0, [], 0, [], false, [], [], []⟩

/-- The field String(a, x). -/
def fieldA : Field := ⟨byteStr "a", FieldType.StringType, 0, byteStr "x", FieldValue.vNone⟩

/-- The field Int64(b, 10). -/
def fieldB : Field := ⟨byteStr "b", FieldType.Int64Type, 10, [], FieldValue.vNone⟩

/-- The field Bool(c, true). -/
def fieldC : Field := ⟨byteStr "c", FieldType.BoolType, 1, [], FieldValue.vNone⟩

/-- A compact encoder holding one open namespace. -/
def encOneNamespace : jsonEncoder := ⟨cfgEmpty, [], false, 1⟩

/-- A field carrying the unknown sentinel type. -/
def fieldUnknown : Field := ⟨byteStr "k", FieldType.UnknownType, 0, [], FieldValue.vNone⟩

/-- A fresh compact encoder over the well-installed configuration. -/
def encWC : jsonEncoder := newJSONEncoder cfgWC false

/-- A sink writing 5 bytes without error. -/
def sink5 : WriteSyncerW := fun _ => (5, none)

/-- A sink writing 3 bytes without error. -/
def sink3 : WriteSyncerW := fun _ => (3, none)

/-- A sink writing 7 bytes without error. -/
def sink7 : WriteSyncerW := fun _ => (7, none)

/-- A compact encoder whose buffer ends in a double quote. -/
def sepTestEnc : jsonEncoder := ⟨cfgEmpty, [34], false, 0⟩

/-- One encoder state extends another when its buffer appends some tail to
the other's buffer. -/
def Extends (st st' : jsonEncoder) : Prop := ∃ t, st'.buf = st.buf ++ t

/- ------------------------------------------------------------------ -/
/- Theorems.                                                           -/
/- ------------------------------------------------------------------ -/

theorem extends_rfl (st : jsonEncoder) : Extends st st := ⟨[], by simp⟩

theorem extends_trans {a b c : jsonEncoder} (h1 : Extends a b) (h2 : Extends b c) :
    Extends a c := by
  obtain ⟨t1, ht1⟩ := h1
  obtain ⟨t2, ht2⟩ := h2
  exact ⟨t1 ++ t2, by rw [ht2, ht1, List.append_assoc]⟩

theorem extends_appendByteJ (st : jsonEncoder) (b : UInt8) : Extends st (appendByteJ st b) :=
  ⟨[b], rfl⟩

theorem extends_bufWriteJ (st : jsonEncoder) (bs : List UInt8) : Extends st (bufWriteJ st bs) :=
  ⟨bs, rfl⟩

/-- addElementSeparator preserves the configuration, spacing flag and
namespace depth, and only appends to the buffer. -/
theorem sep_fields (st : jsonEncoder) :
    (addElementSeparator st).cfg = st.cfg ∧ (addElementSeparator st).spaced = st.spaced ∧
    (addElementSeparator st).openNamespaces = st.openNamespaces := by
  unfold addElementSeparator
  split
  · exact ⟨rfl, rfl, rfl⟩
  · split
    · exact ⟨rfl, rfl, rfl⟩
    · split
      · exact ⟨rfl, rfl, rfl⟩
      · exact ⟨rfl, rfl, rfl⟩

theorem extends_sep (st : jsonEncoder) : Extends st (addElementSeparator st) := by
  unfold addElementSeparator
  split
  · exact extends_rfl st
  · split
    · exact extends_rfl st
    · split
      · exact ⟨[44, 32], by simp [appendByteJ]⟩
      · exact ⟨[44], by simp [appendByteJ]⟩

theorem tryAddRuneSelf_extends (buf : List UInt8) (b : UInt8) (buf1 : List UInt8)
    (h : tryAddRuneSelfB buf b = some buf1) : ∃ e, buf1 = buf ++ e := by
  unfold tryAddRuneSelfB at h
  by_cases h0 : 0x80 ≤ b.toNat
  · rw [if_pos h0] at h; exact Option.noConfusion h
  · rw [if_neg h0] at h
    have h1 := (Option.some.inj h).symm
    rw [h1]
    split
    · exact ⟨_, rfl⟩
    · split
      · exact ⟨_, rfl⟩
      · split
        · exact ⟨_, rfl⟩
        · split
          · exact ⟨_, rfl⟩
          · split
            · exact ⟨_, rfl⟩
            · exact ⟨_, rfl⟩

theorem tryAddRuneError_extends (buf : List UInt8) (r size : Nat) (buf1 : List UInt8)
    (h : tryAddRuneErrorB buf r size = some buf1) : ∃ e, buf1 = buf ++ e := by
  unfold tryAddRuneErrorB at h
  by_cases h0 : r = 0xFFFD ∧ size = 1
  · rw [if_pos h0] at h; exact ⟨ufffdBytes, (Option.some.inj h).symm⟩
  · rw [if_neg h0] at h; exact Option.noConfusion h

theorem safeGoString_extends : ∀ (fuel : Nat) (buf s : List UInt8),
    ∃ t, safeGoString fuel buf s = buf ++ t := by
  intro fuel
  induction fuel with
  | zero => intro buf s; exact ⟨[], by simp [safeGoString]⟩
  | succ f ih =>
    intro buf s
    cases s with
    | nil => exact ⟨[], by simp [safeGoString]⟩
    | cons b rest =>
      rw [safeGoString]
      cases ht : tryAddRuneSelfB buf b with
      | some buf1 =>
        obtain ⟨e, he⟩ := tryAddRuneSelf_extends buf b buf1 ht
        obtain ⟨t, htl⟩ := ih buf1 rest
        refine ⟨e ++ t, ?_⟩
        show safeGoString f buf1 rest = buf ++ (e ++ t)
        rw [htl, he, List.append_assoc]
      | none =>
        cases hterr : tryAddRuneErrorB buf (decodeRuneInString (b :: rest)).1
            (decodeRuneInString (b :: rest)).2 with
        | some buf1 =>
          obtain ⟨e, he⟩ := tryAddRuneError_extends _ _ _ _ hterr
          obtain ⟨t, htl⟩ := ih buf1 rest
          refine ⟨e ++ t, ?_⟩
          show (match tryAddRuneErrorB buf (decodeRuneInString (b :: rest)).1
              (decodeRuneInString (b :: rest)).2 with
            | some buf1 => safeGoString f buf1 rest
            | none => safeGoString f (buf ++ (b :: rest).take (decodeRuneInString (b :: rest)).2)
                ((b :: rest).drop (decodeRuneInString (b :: rest)).2)) = buf ++ (e ++ t)
          rw [hterr]
          show safeGoString f buf1 rest = buf ++ (e ++ t)
          rw [htl, he, List.append_assoc]
        | none =>
          obtain ⟨t, htl⟩ := ih (buf ++ (b :: rest).take (decodeRuneInString (b :: rest)).2)
            ((b :: rest).drop (decodeRuneInString (b :: rest)).2)
          refine ⟨(b :: rest).take (decodeRuneInString (b :: rest)).2 ++ t, ?_⟩
          show (match tryAddRuneErrorB buf (decodeRuneInString (b :: rest)).1
              (decodeRuneInString (b :: rest)).2 with
            | some buf1 => safeGoString f buf1 rest
            | none => safeGoString f (buf ++ (b :: rest).take (decodeRuneInString (b :: rest)).2)
                ((b :: rest).drop (decodeRuneInString (b :: rest)).2)) =
            buf ++ ((b :: rest).take (decodeRuneInString (b :: rest)).2 ++ t)
          rw [hterr]
          show safeGoString f (buf ++ (b :: rest).take (decodeRuneInString (b :: rest)).2)
              ((b :: rest).drop (decodeRuneInString (b :: rest)).2) =
            buf ++ ((b :: rest).take (decodeRuneInString (b :: rest)).2 ++ t)
          rw [htl, List.append_assoc]

theorem extends_safeAddString (st : jsonEncoder) (s : List UInt8) :
    Extends st (safeAddString st s) := by
  obtain ⟨t, ht⟩ := safeGoString_extends s.length st.buf s
  exact ⟨t, ht⟩

/-- safeAddString preserves the non-buffer components. -/
theorem safeAddString_fields (st : jsonEncoder) (s : List UInt8) :
    (safeAddString st s).cfg = st.cfg ∧ (safeAddString st s).spaced = st.spaced ∧
    (safeAddString st s).openNamespaces = st.openNamespaces :=
  ⟨rfl, rfl, rfl⟩

/-- addKey preserves the configuration, spacing flag and namespace depth. -/
theorem addKey_fields (st : jsonEncoder) (key : List UInt8) :
    (addKey st key).cfg = st.cfg ∧ (addKey st key).spaced = st.spaced ∧
    (addKey st key).openNamespaces = st.openNamespaces := by
  have h := sep_fields st
  unfold addKey
  split
  · exact ⟨h.1, h.2.1, h.2.2⟩
  · exact ⟨h.1, h.2.1, h.2.2⟩

theorem extends_addKey (st : jsonEncoder) (key : List UInt8) : Extends st (addKey st key) := by
  have e1 := extends_sep st
  have e2 := extends_trans e1 (extends_appendByteJ (addElementSeparator st) 34)
  have e3 := extends_trans e2 (extends_safeAddString _ key)
  have e4 := extends_trans e3 (extends_appendByteJ _ 34)
  have e5 := extends_trans e4 (extends_appendByteJ _ 58)
  unfold addKey
  split
  · exact extends_trans e5 (extends_appendByteJ _ 32)
  · exact e5

theorem extends_AppendString (st : jsonEncoder) (s : List UInt8) :
    Extends st (AppendString st s) := by
  unfold AppendString
  exact extends_trans (extends_sep st)
    (extends_trans (extends_appendByteJ _ 34)
      (extends_trans (extends_safeAddString _ s) (extends_appendByteJ _ 34)))

theorem extends_AppendBool (st : jsonEncoder) (v : Bool) : Extends st (AppendBool st v) := by
  unfold AppendBool
  exact extends_trans (extends_sep st) (extends_bufWriteJ _ _)

theorem extends_AppendInt64 (st : jsonEncoder) (v : Int) : Extends st (AppendInt64 st v) := by
  unfold AppendInt64
  exact extends_trans (extends_sep st) (extends_bufWriteJ _ _)

theorem extends_AppendUint64 (st : jsonEncoder) (v : Nat) : Extends st (AppendUint64 st v) := by
  unfold AppendUint64
  exact extends_trans (extends_sep st) (extends_bufWriteJ _ _)

theorem extends_AddString (st : jsonEncoder) (k v : List UInt8) :
    Extends st (AddString st k v) :=
  extends_trans (extends_addKey st k) (extends_AppendString _ v)

theorem extends_AddInt64 (st : jsonEncoder) (k : List UInt8) (v : Int) :
    Extends st (AddInt64 st k v) :=
  extends_trans (extends_addKey st k) (extends_AppendInt64 _ v)

theorem extends_AddBool (st : jsonEncoder) (k : List UInt8) (v : Bool) :
    Extends st (AddBool st k v) :=
  extends_trans (extends_addKey st k) (extends_AppendBool _ v)

theorem extends_OpenNamespace (st : jsonEncoder) (k : List UInt8) :
    Extends st (OpenNamespace st k) := by
  unfold OpenNamespace
  obtain ⟨t, ht⟩ := extends_trans (extends_addKey st k) (extends_appendByteJ _ 123)
  exact ⟨t, ht⟩

theorem extends_runMOps (st : jsonEncoder) : ∀ (ops : List MOp), Extends st (runMOps st ops) := by
  suffices h : ∀ (ops : List MOp) (st : jsonEncoder), Extends st (runMOps st ops) by
    intro ops; exact h ops st
  intro ops
  induction ops with
  | nil => intro st; exact extends_rfl st
  | cons op rest ih =>
    intro st
    rw [runMOps]
    refine extends_trans ?_ (ih _)
    cases op with
    | mAddString k v => exact extends_AddString st k v
    | mAddInt64 k n => exact extends_AddInt64 st k n
    | mAddBool k b => exact extends_AddBool st k b
    | mOpenNamespace k => exact extends_OpenNamespace st k
    | mAppendString sv => exact extends_AppendString st sv
    | mAppendInt64 n => exact extends_AppendInt64 st n
    | mAppendBool b => exact extends_AppendBool st b

/-- After addKey the buffer ends in a colon, or a space when spacing is
enabled, so the following element separator writes nothing. -/
theorem sep_after_addKey (st : jsonEncoder) (key : List UInt8) :
    addElementSeparator (addKey st key) = addKey st key := by
  have hlast : (addKey st key).buf.getLast? = some 58 ∨
      (addKey st key).buf.getLast? = some 32 := by
    unfold addKey
    split
    · right; simp [appendByteJ]
    · left; simp [appendByteJ]
  unfold addElementSeparator
  rcases hlast with h | h <;> rw [h] <;> exact if_pos (by decide)

/-- The closing loop appends one right brace per count and changes no
other component of the state. -/
theorem closeLoop_spec : ∀ (n : Nat) (st : jsonEncoder),
    (closeLoop st n).buf = st.buf ++ List.replicate n 125 ∧
    (closeLoop st n).openNamespaces = st.openNamespaces := by
  intro n
  induction n with
  | zero => intro st; simp [closeLoop]
  | succ n ih =>
    intro st
    have h := ih (appendByteJ st 125)
    rw [closeLoop]
    refine ⟨?_, ?_⟩
    · rw [h.1]; simp [appendByteJ, List.replicate_succ]
    · rw [h.2]; rfl

/-- Claim C1 (amended): closeOpenNamespaces appends exactly
openNamespaces-many right-brace bytes to the buffer and leaves the
openNamespaces counter unchanged (it is reset only when the encoder is
returned to its pool). -/
theorem c1_close_open_namespaces (st : jsonEncoder) :
    (closeOpenNamespaces st).buf = st.buf ++ List.replicate st.openNamespaces 125 ∧
    (closeOpenNamespaces st).openNamespaces = st.openNamespaces :=
  closeLoop_spec st.openNamespaces st

/-- Claim C1 counterexample: on an encoder with namespace depth one,
closeOpenNamespaces does not reset the counter to zero. -/
theorem c1_counterexample :
    ¬ ((closeOpenNamespaces encOneNamespace).openNamespaces = 0) := by decide

/-- Claim C8: JSON-encoding the fields String(a, x), Int64(b, 10),
Bool(c, true) with a fresh compact encoder and a minimal entry under a
configuration with all metadata keys empty produces exactly the compact
object bytes followed by a newline, with a nil error. -/
theorem c8_json_concrete_scenario :
    jsonEncodeEntry encCompact entMin [fieldA, fieldB, fieldC] =
      some (byteStr "\x7b\"a\":\"x\",\"b\":10,\"c\":true\x7d\n", none) := by decide

/-- Claim C3 counterexample: console-encoding those fields does not
produce the compact bytes the claim states (the console encoder runs its
embedded json encoder in spaced mode). -/
theorem c3_counterexample :
    consoleEncodeEntry encConsole entMin [fieldA, fieldB, fieldC] ≠
      some (byteStr "\x7b\"a\":\"x\",\"b\":10,\"c\":true\x7d\n", none) := by decide

/-- Claim C3 (amended): console-encoding the fields String(a, x),
Int64(b, 10), Bool(c, true) with a minimal entry and no metadata keys
produces exactly the context object with a space after each colon and
comma, followed by a newline, with no leading tab. -/
theorem c3_console_concrete_scenario :
    consoleEncodeEntry encConsole entMin [fieldA, fieldB, fieldC] =
      some (byteStr "\x7b\"a\": \"x\", \"b\": 10, \"c\": true\x7d\n", none) := by decide

/-- Claim C4: before a value write, the element-separator step appends
nothing when the buffer is empty or its last byte is a left brace, left
bracket, colon, comma or space; for any other last byte it appends exactly
one comma, plus exactly one space iff the spacing flag is enabled. -/
theorem c4_element_separator (st : jsonEncoder) :
    (st.buf = [] → addElementSeparator st = st) ∧
    (∀ b, st.buf.getLast? = some b →
      (b.toNat = 123 ∨ b.toNat = 91 ∨ b.toNat = 58 ∨ b.toNat = 44 ∨ b.toNat = 32) →
      addElementSeparator st = st) ∧
    (∀ b, st.buf.getLast? = some b →
      ¬ (b.toNat = 123 ∨ b.toNat = 91 ∨ b.toNat = 58 ∨ b.toNat = 44 ∨ b.toNat = 32) →
      (addElementSeparator st).buf = st.buf ++ (if st.spaced then [44, 32] else [44])) := by
  refine ⟨?_, ?_, ?_⟩
  · intro h
    unfold addElementSeparator
    rw [h]
    rfl
  · intro b hb hcond
    unfold addElementSeparator
    rw [hb]
    simp [hcond]
  · intro b hb hcond
    unfold addElementSeparator
    rw [hb]
    simp only [if_neg hcond]
    cases hs : st.spaced <;> simp [appendByteJ, hs]

/-- Witness for C4: a buffer ending in a double quote receives exactly one
comma in compact mode. -/
theorem c4_element_separator_witness :
    (addElementSeparator sepTestEnc).buf = [34, 44] := by
  have h := (c4_element_separator sepTestEnc).2.2 34 (by decide) (by decide)
  simpa using h

/-- The multiWriteSyncer.Write loop, from any accumulator, computes the
claim's running-count rule on the member counts and appends every member
error in order. -/
theorem multiStep_fold_spec (p : List UInt8) :
    ∀ (ws : List WriteSyncerW) (n : Nat) (es : List (List UInt8)),
      ws.foldl (multiStep p) (n, es) =
        ((ws.map (fun w => (w p).1)).foldl claimStep n,
         es ++ ws.filterMap (fun w => (w p).2)) := by
  intro ws
  induction ws with
  | nil => intro n es; simp
  | cons w rest ih =>
    intro n es
    rw [List.foldl_cons, List.map_cons, List.foldl_cons, List.filterMap_cons]
    have hstep : multiStep p (n, es) w =
        (claimStep n (w p).1, es ++ ((w p).2).toList) := rfl
    rw [hstep, ih]
    cases h2 : (w p).2 <;> simp [h2]

/-- Claim C2: for every non-empty member list, multiWriteSyncer.Write
aggregates the errors of all members (none is skipped, so no
short-circuiting occurs) and returns the byte count given by the claim's
rule: start at 0, the first non-zero member count sets the running value,
any later smaller count lowers it. -/
theorem c2_multi_write_syncer (ws : List WriteSyncerW) (p : List UInt8) (_h : ws ≠ []) :
    (multiWriteSyncerWrite ws p).1 = claimMultiWriteCount (ws.map (fun w => (w p).1)) ∧
    (multiWriteSyncerWrite ws p).2 = ws.filterMap (fun w => (w p).2) := by
  unfold multiWriteSyncerWrite claimMultiWriteCount
  rw [multiStep_fold_spec p ws 0 []]
  simp

/-- Witness for C2: members writing counts 5, 3, 7 with no errors yield a
count of 3 and an empty aggregate error. -/
theorem c2_multi_write_syncer_witness :
    (multiWriteSyncerWrite [sink5, sink3, sink7] [1]).1 = 3 ∧
    (multiWriteSyncerWrite [sink5, sink3, sink7] [1]).2 = [] := by
  have h := c2_multi_write_syncer [sink5, sink3, sink7] [1] (by simp)
  exact ⟨h.1.trans (by decide), h.2.trans (by decide)⟩

/-- Claim C9: whenever jsonEncoder.EncodeEntry or
consoleEncoder.EncodeEntry returns (including field lists whose marshaler
or reflection encoding fails, which are recovered inside Field.AddTo), the
returned error is nil. -/
theorem c9_encode_entry_nil_error (enc : jsonEncoder) (ent : Entry) (fields : List Field)
    (r : List UInt8 × Option (List UInt8)) :
    (jsonEncodeEntry enc ent fields = some r → r.2 = none) ∧
    (consoleEncodeEntry enc ent fields = some r → r.2 = none) := by
  constructor
  · intro h
    unfold jsonEncodeEntry at h
    cases hc : jsonEncodeEntryCore enc ent fields with
    | none => rw [hc] at h; exact Option.noConfusion h
    | some b =>
      rw [hc] at h
      have h2 : (b, (none : Option (List UInt8))) = r := Option.some.inj h
      rw [← h2]
  · intro h
    unfold consoleEncodeEntry at h
    cases hc : consoleEncodeEntryCore enc ent fields with
    | none => rw [hc] at h; exact Option.noConfusion h
    | some b =>
      rw [hc] at h
      have h2 : (b, (none : Option (List UInt8))) = r := Option.some.inj h
      rw [← h2]

/-- Witness for C9: a concrete encode whose returned error is nil. -/
theorem c9_encode_entry_nil_error_witness :
    jsonEncodeEntry encCompact entMin [] = some ([123, 125, 10], none) ∧
    (([123, 125, 10], (none : Option (List UInt8))) :
        List UInt8 × Option (List UInt8)).2 = none := by
  refine ⟨by decide, ?_⟩
  exact (c9_encode_entry_nil_error encCompact entMin [] ([123, 125, 10], none)).1 (by decide)

/-- Claim C5: for an array- or object-marshaler field whose callback
errors, Field.AddTo does not abort: the container brackets are written on
both the success and failure paths (the callback trace lies strictly
between them), the callback's error propagates out of
AppendArray/AppendObject, and on failure a string field keyed
key ++ "Error" holding the message is added. -/
theorem c5_marshaler_error_recovery (st : jsonEncoder) (key : List UInt8) (m : MarshalerM) :
    (∃ mid, (AddArray st key m).1.buf = (addKey st key).buf ++ 91 :: mid ++ [93]) ∧
    (AddArray st key m).2 = m.err ∧
    AddTo ⟨key, FieldType.ArrayMarshalerType, 0, [], FieldValue.vArr m⟩ st =
      some (match m.err with
        | none => (AddArray st key m).1
        | some msg => AddString (AddArray st key m).1 (key ++ byteStr "Error") msg) ∧
    (∃ mid, (AddObject st key m).1.buf = (addKey st key).buf ++ 123 :: mid ++ [125]) ∧
    (AddObject st key m).2 = m.err ∧
    AddTo ⟨key, FieldType.ObjectMarshalerType, 0, [], FieldValue.vObj m⟩ st =
      some (match m.err with
        | none => (AddObject st key m).1
        | some msg => AddString (AddObject st key m).1 (key ++ byteStr "Error") msg) := by
  have h1 : (AddArray st key m).1 =
      appendByteJ (runMOps (appendByteJ (addKey st key) 91) m.ops) 93 := by
    simp only [AddArray, AppendArray, sep_after_addKey]
  have h2 : (AddObject st key m).1 =
      appendByteJ (runMOps (appendByteJ (addKey st key) 123) m.ops) 125 := by
    simp only [AddObject, AppendObject, sep_after_addKey]
  refine ⟨?_, rfl, ?_, ?_, rfl, ?_⟩
  · obtain ⟨t, ht⟩ := extends_runMOps (appendByteJ (addKey st key) 91) m.ops
    refine ⟨t, ?_⟩
    rw [h1]
    show (runMOps (appendByteJ (addKey st key) 91) m.ops).buf ++ [93] = _
    rw [ht]
    show ((addKey st key).buf ++ [91]) ++ t ++ [93] = _
    simp
  · cases hm : m.err with
    | none => simp [AddTo, AddArray, AppendArray, hm]
    | some msg => simp [AddTo, AddArray, AppendArray, hm]
  · obtain ⟨t, ht⟩ := extends_runMOps (appendByteJ (addKey st key) 123) m.ops
    refine ⟨t, ?_⟩
    rw [h2]
    show (runMOps (appendByteJ (addKey st key) 123) m.ops).buf ++ [125] = _
    rw [ht]
    show ((addKey st key).buf ++ [123]) ++ t ++ [125] = _
    simp
  · cases hm : m.err with
    | none => simp [AddTo, AddObject, AppendObject, hm]
    | some msg => simp [AddTo, AddObject, AppendObject, hm]

theorem AddDuration_isSome (st : jsonEncoder) (key : List UInt8) (d : Int)
    (h : st.cfg.encodeDuration.isSome = true) : ∃ x, AddDuration st key d = some x := by
  obtain ⟨g, hg⟩ := Option.isSome_iff_exists.mp h
  have hc : (addKey st key).cfg = st.cfg := (addKey_fields st key).1
  unfold AddDuration AppendDuration
  rw [hc, hg]
  exact ⟨_, rfl⟩

theorem AddTime_isSome (st : jsonEncoder) (key : List UInt8) (t : Int)
    (h : st.cfg.encodeTime.isSome = true) : ∃ x, AddTime st key t = some x := by
  obtain ⟨g, hg⟩ := Option.isSome_iff_exists.mp h
  have hc : (addKey st key).cfg = st.cfg := (addKey_fields st key).1
  unfold AddTime AppendTime
  rw [hc, hg]
  exact ⟨_, rfl⟩

/-- Claim C7: on a well-formed field over a fully-installed configuration,
Field.AddTo panics exactly on the unknown sentinel type; every other
failure in the dispatch is surfaced as a value (the marshaler and
reflection errors are recovered into synthetic fields, so the dispatch
itself returns). -/
theorem c7_unknown_type_panics (f : Field) (st : jsonEncoder)
    (h1 : wellFormed f = true) (h2 : wellConfigured st.cfg = true) :
    AddTo f st = none ↔ f.ty = FieldType.UnknownType := by
  have hb : st.cfg.encodeDuration.isSome = true ∧ st.cfg.encodeTime.isSome = true := by
    unfold wellConfigured at h2
    constructor
    · cases hcase : st.cfg.encodeDuration.isSome
      · rw [hcase] at h2; exact Bool.noConfusion h2
      · rfl
    · cases hcase : st.cfg.encodeTime.isSome
      · rw [hcase] at h2; simp at h2
      · rfl
  obtain ⟨key, ty, integer, strv, value⟩ := f
  cases ty <;> cases value <;>
    first
      | exact Bool.noConfusion h1
      | (obtain ⟨x, hx⟩ := AddDuration_isSome st key integer hb.1
         simp [AddTo, hx]
         done)
      | (obtain ⟨x, hx⟩ := AddTime_isSome st key integer hb.2
         simp [AddTo, hx]
         done)
      | simp [AddTo]

/-- Witness for C7: a concrete unknown-typed field over an installed
configuration panics. -/
theorem c7_unknown_type_panics_witness :
    wellFormed fieldUnknown = true ∧ wellConfigured encWC.cfg = true ∧
    AddTo fieldUnknown encWC = none := by
  refine ⟨by decide, by rfl, ?_⟩
  exact (c7_unknown_type_panics fieldUnknown encWC (by decide) (by rfl)).mpr rfl

theorem ite_one_le {c : Prop} [inst : Decidable c] {a b : Nat} (h1 : 1 ≤ a) (h2 : 1 ≤ b) :
    1 ≤ (if c then a else b) := by
  by_cases h : c
  · rw [if_pos h]; exact h1
  · rw [if_neg h]; exact h2

/-- On non-empty input the decoder always consumes at least one byte. -/
theorem decode_size_pos (b : UInt8) (rest : List UInt8) : 1 ≤ (decodeRune (b :: rest)).2 := by
  rcases rest with _ | ⟨b1, _ | ⟨b2, _ | ⟨b3, rest3⟩⟩⟩ <;>
    (unfold decodeRune
     dsimp only
     simp only [apply_ite Prod.snd]
     repeat' first
       | exact Nat.succ_le_succ (Nat.zero_le _)
       | apply ite_one_le)

/-- The byte-string loop and the string loop compute identically at every
fuel. -/
theorem safeGo_eq : ∀ (fuel : Nat) (buf s : List UInt8),
    safeGoBytes fuel buf s = safeGoString fuel buf s := by
  intro fuel
  induction fuel with
  | zero => intro buf s; rfl
  | succ f ih =>
    intro buf s
    cases s with
    | nil => rfl
    | cons b rest =>
      rw [safeGoBytes, safeGoString]
      cases ht : tryAddRuneSelfB buf b with
      | some buf1 => simp only [ht]; exact ih buf1 rest
      | none =>
        simp only [ht, decodeRuneInString]
        cases hterr : tryAddRuneErrorB buf (decodeRune (b :: rest)).1 (decodeRune (b :: rest)).2 with
        | some buf1 => simp only [hterr]; exact ih buf1 rest
        | none => simp only [hterr]; exact ih _ _

/-- The loop's result does not depend on the fuel once the fuel covers the
input length. -/
theorem safeGoString_fuel : ∀ (f f2 : Nat) (buf s : List UInt8),
    s.length ≤ f → s.length ≤ f2 → safeGoString f buf s = safeGoString f2 buf s := by
  intro f
  induction f with
  | zero =>
    intro f2 buf s h _
    have hs : s = [] := List.length_eq_zero.mp (Nat.le_zero.mp h)
    subst hs
    cases f2 <;> rfl
  | succ f ih =>
    intro f2 buf s h h2
    cases s with
    | nil => cases f2 <;> rfl
    | cons b rest =>
      have hlen : rest.length + 1 ≤ f2 := by
        rw [List.length_cons] at h2; exact h2
      cases f2 with
      | zero => exact absurd hlen (by omega)
      | succ f2 =>
        rw [safeGoString, safeGoString]
        cases ht : tryAddRuneSelfB buf b with
        | some buf1 =>
          simp only [ht]
          exact ih f2 buf1 rest (by rw [List.length_cons] at h; omega) (by omega)
        | none =>
          simp only [ht]
          cases hterr : tryAddRuneErrorB buf (decodeRuneInString (b :: rest)).1
              (decodeRuneInString (b :: rest)).2 with
          | some buf1 =>
            simp only [hterr]
            exact ih f2 buf1 rest (by rw [List.length_cons] at h; omega) (by omega)
          | none =>
            simp only [hterr]
            have hsz : 1 ≤ (decodeRuneInString (b :: rest)).2 := decode_size_pos b rest
            have hd : ((b :: rest).drop (decodeRuneInString (b :: rest)).2).length ≤ f := by
              rw [List.length_drop, List.length_cons]
              rw [List.length_cons] at h
              omega
            have hd2 : ((b :: rest).drop (decodeRuneInString (b :: rest)).2).length ≤ f2 := by
              rw [List.length_drop, List.length_cons]
              omega
            exact ih f2 _ _ hd hd2

theorem tryAddRuneSelf_none (buf : List UInt8) (b : UInt8) (h : 128 ≤ b.toNat) :
    tryAddRuneSelfB buf b = none := by
  unfold tryAddRuneSelfB
  exact if_pos h

theorem safeAdd_step_pass (buf : List UInt8) (b : UInt8) (rest : List UInt8)
    (h1 : 32 ≤ b.toNat) (h2 : b.toNat < 128) (h3 : b.toNat ≠ 92) (h4 : b.toNat ≠ 34) :
    safeAddStringB buf (b :: rest) = safeAddStringB (buf ++ [b]) rest := by
  unfold safeAddStringB
  rw [List.length_cons, safeGoString]
  have hs : tryAddRuneSelfB buf b = some (buf ++ [b]) := by
    unfold tryAddRuneSelfB
    rw [if_neg (by omega), if_pos ⟨h1, h3, h4⟩]
  simp only [hs]

theorem safeAdd_step_escape (buf : List UInt8) (rest : List UInt8) :
    safeAddStringB buf (92 :: rest) = safeAddStringB (buf ++ [92, 92]) rest ∧
    safeAddStringB buf (34 :: rest) = safeAddStringB (buf ++ [92, 34]) rest ∧
    safeAddStringB buf (10 :: rest) = safeAddStringB (buf ++ [92, 110]) rest ∧
    safeAddStringB buf (13 :: rest) = safeAddStringB (buf ++ [92, 114]) rest ∧
    safeAddStringB buf (9 :: rest) = safeAddStringB (buf ++ [92, 116]) rest := by
  refine ⟨?_, ?_, ?_, ?_, ?_⟩
  · unfold safeAddStringB
    rw [List.length_cons, safeGoString]
    have hs : tryAddRuneSelfB buf 92 = some (buf ++ [92, 92]) := by
      unfold tryAddRuneSelfB
      rw [if_neg (by decide), if_neg (by decide), if_pos (by decide)]
    simp only [hs]
  · unfold safeAddStringB
    rw [List.length_cons, safeGoString]
    have hs : tryAddRuneSelfB buf 34 = some (buf ++ [92, 34]) := by
      unfold tryAddRuneSelfB
      rw [if_neg (by decide), if_neg (by decide), if_pos (by decide)]
    simp only [hs]
  · unfold safeAddStringB
    rw [List.length_cons, safeGoString]
    have hs : tryAddRuneSelfB buf 10 = some (buf ++ [92, 110]) := by
      unfold tryAddRuneSelfB
      rw [if_neg (by decide), if_neg (by decide), if_neg (by decide), if_pos (by decide)]
    simp only [hs]
  · unfold safeAddStringB
    rw [List.length_cons, safeGoString]
    have hs : tryAddRuneSelfB buf 13 = some (buf ++ [92, 114]) := by
      unfold tryAddRuneSelfB
      rw [if_neg (by decide), if_neg (by decide), if_neg (by decide), if_neg (by decide),
        if_pos (by decide)]
    simp only [hs]
  · unfold safeAddStringB
    rw [List.length_cons, safeGoString]
    have hs : tryAddRuneSelfB buf 9 = some (buf ++ [92, 116]) := by
      unfold tryAddRuneSelfB
      rw [if_neg (by decide), if_neg (by decide), if_neg (by decide), if_neg (by decide),
        if_neg (by decide), if_pos (by decide)]
    simp only [hs]

theorem safeAdd_step_control (buf : List UInt8) (b : UInt8) (rest : List UInt8)
    (h1 : b.toNat < 32) (h2 : b.toNat ≠ 10) (h3 : b.toNat ≠ 13) (h4 : b.toNat ≠ 9) :
    safeAddStringB buf (b :: rest) =
      safeAddStringB (buf ++ [92, 117, 48, 48, hexDigit (b.toNat / 16), hexDigit (b.toNat % 16)])
        rest := by
  unfold safeAddStringB
  rw [List.length_cons, safeGoString]
  have hs : tryAddRuneSelfB buf b =
      some (buf ++ [92, 117, 48, 48, hexDigit (b.toNat / 16), hexDigit (b.toNat % 16)]) := by
    unfold tryAddRuneSelfB
    rw [if_neg (by omega), if_neg (by omega), if_neg (by omega), if_neg h2, if_neg h3, if_neg h4]
  simp only [hs]

theorem safeAdd_step_invalid (buf : List UInt8) (b : UInt8) (rest : List UInt8)
    (hb : 128 ≤ b.toNat) (hd : decodeRuneInString (b :: rest) = (0xFFFD, 1)) :
    safeAddStringB buf (b :: rest) = safeAddStringB (buf ++ ufffdBytes) rest := by
  unfold safeAddStringB
  rw [List.length_cons, safeGoString]
  simp only [tryAddRuneSelf_none buf b hb, hd]
  have hterr : tryAddRuneErrorB buf 0xFFFD 1 = some (buf ++ ufffdBytes) := by
    unfold tryAddRuneErrorB
    rw [if_pos ⟨rfl, rfl⟩]
  simp only [hterr]

theorem safeAdd_step_multibyte (buf : List UInt8) (b : UInt8) (rest : List UInt8)
    (r sz : Nat) (hb : 128 ≤ b.toNat) (hd : decodeRuneInString (b :: rest) = (r, sz))
    (hne : ¬ (r = 0xFFFD ∧ sz = 1)) :
    safeAddStringB buf (b :: rest) =
      safeAddStringB (buf ++ (b :: rest).take sz) ((b :: rest).drop sz) := by
  unfold safeAddStringB
  rw [List.length_cons, safeGoString]
  simp only [tryAddRuneSelf_none buf b hb, hd]
  have hterr : tryAddRuneErrorB buf r sz = none := by
    unfold tryAddRuneErrorB
    rw [if_neg hne]
  simp only [hterr]
  have hsz : 1 ≤ sz := by
    have hpos := decode_size_pos b rest
    have hd2 : decodeRune (b :: rest) = (r, sz) := hd
    rw [hd2] at hpos
    exact hpos
  apply safeGoString_fuel
  · rw [List.length_drop, List.length_cons]; omega
  · exact Nat.le_refl _

/-- Claim C6: string escaping routes each byte of the input as follows:
an ASCII byte at least 0x20 other than backslash and double quote passes
through unchanged; backslash, double quote, newline, carriage return and
tab get their two-character escapes; any other byte below 0x20 becomes the
six-byte sequence for its hexadecimal code; an invalid lead byte (a
sequence decoding to the replacement rune with size one) becomes the
literal six characters of the replacement escape; any other valid
multi-byte rune is copied through verbatim — and safeAddByteString
produces byte-identical output to safeAddString on the same bytes. -/
theorem c6_string_escaping :
    (∀ buf s, safeAddByteStringB buf s = safeAddStringB buf s) ∧
    (∀ buf (b : UInt8) rest, 32 ≤ b.toNat → b.toNat < 128 → b.toNat ≠ 92 → b.toNat ≠ 34 →
      safeAddStringB buf (b :: rest) = safeAddStringB (buf ++ [b]) rest) ∧
    (∀ buf rest,
      safeAddStringB buf (92 :: rest) = safeAddStringB (buf ++ [92, 92]) rest ∧
      safeAddStringB buf (34 :: rest) = safeAddStringB (buf ++ [92, 34]) rest ∧
      safeAddStringB buf (10 :: rest) = safeAddStringB (buf ++ [92, 110]) rest ∧
      safeAddStringB buf (13 :: rest) = safeAddStringB (buf ++ [92, 114]) rest ∧
      safeAddStringB buf (9 :: rest) = safeAddStringB (buf ++ [92, 116]) rest) ∧
    (∀ buf (b : UInt8) rest, b.toNat < 32 → b.toNat ≠ 10 → b.toNat ≠ 13 → b.toNat ≠ 9 →
      safeAddStringB buf (b :: rest) =
        safeAddStringB (buf ++ [92, 117, 48, 48, hexDigit (b.toNat / 16), hexDigit (b.toNat % 16)])
          rest) ∧
    (∀ buf (b : UInt8) rest, 128 ≤ b.toNat → decodeRuneInString (b :: rest) = (0xFFFD, 1) →
      safeAddStringB buf (b :: rest) = safeAddStringB (buf ++ ufffdBytes) rest) ∧
    (∀ buf (b : UInt8) rest (r sz : Nat), 128 ≤ b.toNat →
      decodeRuneInString (b :: rest) = (r, sz) → ¬ (r = 0xFFFD ∧ sz = 1) →
      safeAddStringB buf (b :: rest) =
        safeAddStringB (buf ++ (b :: rest).take sz) ((b :: rest).drop sz)) := by
  refine ⟨?_, ?_, ?_, ?_, ?_, ?_⟩
  · intro buf s
    unfold safeAddByteStringB safeAddStringB
    exact safeGo_eq s.length buf s
  · intro buf b rest h1 h2 h3 h4
    exact safeAdd_step_pass buf b rest h1 h2 h3 h4
  · intro buf rest
    exact safeAdd_step_escape buf rest
  · intro buf b rest h1 h2 h3 h4
    exact safeAdd_step_control buf b rest h1 h2 h3 h4
  · intro buf b rest hb hd
    exact safeAdd_step_invalid buf b rest hb hd
  · intro buf b rest r sz hb hd hne
    exact safeAdd_step_multibyte buf b rest r sz hb hd hne

/-- Witness for C6: concrete bytes exercising each routing clause. -/
theorem c6_string_escaping_witness :
    safeAddStringB [] [65] = [65] ∧
    safeAddStringB [] [92] = [92, 92] ∧
    safeAddStringB [] [1] = [92, 117, 48, 48, 48, 49] ∧
    safeAddStringB [] [255] = ufffdBytes ∧
    safeAddStringB [] [228, 184, 173] = [228, 184, 173] ∧
    safeAddByteStringB [] [255] = safeAddStringB [] [255] := by
  have h := c6_string_escaping
  refine ⟨?_, ?_, ?_, ?_, ?_, ?_⟩
  · exact (h.2.1 [] 65 [] (by decide) (by decide) (by decide) (by decide)).trans (by decide)
  · exact ((h.2.2.1 [] []).1).trans (by decide)
  · exact (h.2.2.2.1 [] 1 [] (by decide) (by decide) (by decide) (by decide)).trans (by decide)
  · exact (h.2.2.2.2.1 [] 255 [] (by decide) (by decide)).trans (by decide)
  · exact (h.2.2.2.2.2 [] 228 [184, 173] 20013 3 (by decide) (by decide) (by decide)).trans
      (by decide)
  · exact h.1 [] [255]

/-- Every character of the base64 alphabet passes the escaper through
unchanged: printable ASCII, not backslash, not double quote. -/
theorem b64Char_pass : ∀ n, n < 64 →
    32 ≤ (b64Char n).toNat ∧ (b64Char n).toNat < 128 ∧
    (b64Char n).toNat ≠ 92 ∧ (b64Char n).toNat ≠ 34 := by decide

theorem pad_pass :
    32 ≤ (61 : UInt8).toNat ∧ (61 : UInt8).toNat < 128 ∧
    (61 : UInt8).toNat ≠ 92 ∧ (61 : UInt8).toNat ≠ 34 := by decide

/-- Every byte of a base64 encoding passes the escaper through
unchanged. -/
theorem base64_pass (v : List UInt8) : ∀ b ∈ base64Encode v,
    32 ≤ b.toNat ∧ b.toNat < 128 ∧ b.toNat ≠ 92 ∧ b.toNat ≠ 34 := by
  induction v using base64Encode.induct with
  | case1 => intro b hb; exact absurd hb (List.not_mem_nil b)
  | case2 a =>
    intro b hb
    have ha := UInt8.toNat_lt a
    simp only [base64Encode, List.mem_cons, List.not_mem_nil, or_false] at hb
    rcases hb with rfl | rfl | rfl | rfl
    · exact b64Char_pass _ (by omega)
    · exact b64Char_pass _ (by omega)
    · exact pad_pass
    · exact pad_pass
  | case3 a c =>
    intro b hb
    have ha := UInt8.toNat_lt a
    have hc := UInt8.toNat_lt c
    simp only [base64Encode, List.mem_cons, List.not_mem_nil, or_false] at hb
    rcases hb with rfl | rfl | rfl | rfl
    · exact b64Char_pass _ (by omega)
    · exact b64Char_pass _ (by omega)
    · exact b64Char_pass _ (by omega)
    · exact pad_pass
  | case4 a c d rest ih =>
    intro b hb
    have ha := UInt8.toNat_lt a
    have hc := UInt8.toNat_lt c
    have hd := UInt8.toNat_lt d
    simp only [base64Encode, List.mem_cons] at hb
    rcases hb with rfl | rfl | rfl | rfl | hb
    · exact b64Char_pass _ (by omega)
    · exact b64Char_pass _ (by omega)
    · exact b64Char_pass _ (by omega)
    · exact b64Char_pass _ (by omega)
    · exact ih b hb

/-- A string every byte of which is passed through unchanged is appended
verbatim by the escaper. -/
theorem safeAdd_all_pass : ∀ (s buf : List UInt8),
    (∀ b ∈ s, 32 ≤ b.toNat ∧ b.toNat < 128 ∧ b.toNat ≠ 92 ∧ b.toNat ≠ 34) →
    safeAddStringB buf s = buf ++ s := by
  intro s
  induction s with
  | nil => intro buf _; simp [safeAddStringB, safeGoString]
  | cons b rest ih =>
    intro buf h
    have hb := h b (List.mem_cons_self b rest)
    rw [safeAdd_step_pass buf b rest hb.1 hb.2.1 hb.2.2.1 hb.2.2.2]
    rw [ih (buf ++ [b]) (fun x hx => h x (List.mem_cons_of_mem b hx))]
    simp

/-- Claim C10: AddBinary(key, val) is AddString of the standard base64
encoding of val, and the base64 text reaches the buffer verbatim between
the two quotes of a JSON string: binary blobs always appear as quoted
base64 strings. -/
theorem c10_add_binary_base64 (st : jsonEncoder) (key val : List UInt8) :
    AddBinary st key val = AddString st key (base64Encode val) ∧
    (AddBinary st key val).buf =
      (addKey st key).buf ++ 34 :: (base64Encode val ++ [34]) := by
  refine ⟨rfl, ?_⟩
  show (AddString st key (base64Encode val)).buf = _
  rw [AddString, AppendString, sep_after_addKey]
  show (safeAddString (appendByteJ (addKey st key) 34) (base64Encode val)).buf ++ [34] = _
  show safeAddStringB ((addKey st key).buf ++ [34]) (base64Encode val) ++ [34] = _
  rw [safeAdd_all_pass (base64Encode val) _ (base64_pass val)]
  simp

end Zap
